import Mathlib

/-!
Shallow embedding of the NaiveRhythm program (src/main.rs): a text parser,
a beat quantizer (solve) and a MIDI track builder (build).  Rust u32 values
are modelled as Nat; 32-bit wrap-around (the release-profile semantics of
u32 arithmetic) is written explicitly as reduction modulo U32 wherever the
source expression can overflow, and a checked evaluation returning Option
mirrors the overflow checks of a debug build.  The low-level MIDI byte
serialization (the midly library call smf.write_std) is external to the
repository, so build is modelled up to the list of track event lists it
hands to the library; each delta is modelled as the u32 value the source
passes to the external u28 constructor.
-/

/-- Cardinality of the 32-bit unsigned integers, 2 ^ 32. -/
def U32 : Nat := 4294967296

/-- Rust struct Input: the tempo field bmp and the key timestamps. -/
structure Input where
  bmp : Nat
  keys : List Nat
deriving DecidableEq

/-- Rust struct Output: the tempo field bmp and the quantized beat indices. -/
structure Output where
  bmp : Nat
  beat : List Nat
deriving DecidableEq

/-- Rust enum ParseError from src/main.rs. -/
inductive ParseError where
  | BadMagic
  | BadBpm
  | BadKey
deriving DecidableEq

/-- Rust test that a char is an ASCII decimal digit, as used by
str::parse::<u32>. -/
def isDigitChar (c : Char) : Bool := decide ('0' ≤ c) && decide (c ≤ '9')

/-- Numeric value of a list of decimal digit characters, most significant
first. -/
def digitsToNat (cs : List Char) : Nat :=
  cs.foldl (fun a c => 10 * a + (c.toNat - 48)) 0

/-- Model of Rust str::parse::<u32>: an optional leading plus sign, then a
non-empty run of decimal digits whose value fits in 32 bits; anything else
(including overflow) is an error. -/
def parseU32 (cs : List Char) : Option Nat :=
  let ds := match cs with
    | '+' :: rest => rest
    | _ => cs
  if ds ≠ [] ∧ ds.all isDigitChar ∧ digitsToNat ds < U32 then
    some (digitsToNat ds)
  else
    none

/-- Model of Rust str::split on the pattern [' ', '\n']: the input is cut at
every space or newline, keeping empty pieces (so the empty string yields one
empty token, exactly as in Rust). -/
def splitTokens : List Char → List (List Char)
  | [] => [[]]
  | c :: rest =>
    if c = ' ' ∨ c = '\n' then
      [] :: splitTokens rest
    else
      match splitTokens rest with
      | [] => [[c]]
      | t :: ts => (c :: t) :: ts

/-- Key loop of parse in src/main.rs: every remaining token is parsed as a
u32 timestamp, except that empty tokens are skipped; an unparsable token
aborts with BadKey. -/
def parseKeys : List (List Char) → Except ParseError (List Nat)
  | [] => .ok []
  | t :: ts =>
    if t = [] then
      parseKeys ts
    else
      match parseU32 t with
      | none => .error .BadKey
      | some k => (parseKeys ts).map (fun ks => k :: ks)

/-- Token-level body of parse in src/main.rs: the first token must be the
magic string naive-rhythm, the second must be the literal keyword bmp, the
third must parse as a u32 tempo, and the remaining tokens go through the
key loop. -/
def parseTokens : List (List Char) → Except ParseError Input
  | [] => .error .BadMagic
  | t0 :: rest0 =>
    if t0 ≠ "naive-rhythm".data then .error .BadMagic
    else
      match rest0 with
      | [] => .error .BadBpm
      | t1 :: rest1 =>
        if t1 ≠ "bmp".data then .error .BadBpm
        else
          match rest1 with
          | [] => .error .BadBpm
          | t2 :: rest2 =>
            match parseU32 t2 with
            | none => .error .BadBpm
            | some bmp => (parseKeys rest2).map (fun ks => ⟨bmp, ks⟩)

/-- Rust fn parse from src/main.rs: split the input on spaces and newlines
and run the token-level grammar. -/
def parse (s : String) : Except ParseError Input :=
  parseTokens (splitTokens s.data)

/-- Wrapping 32-bit addition (Rust u32 addition in a release build). -/
def wadd (a b : Nat) : Nat := (a + b) % U32

/-- Wrapping 32-bit subtraction (Rust u32 subtraction in a release build);
both arguments are u32 values, i.e. below U32. -/
def wsub (a b : Nat) : Nat := (a + U32 - b) % U32

/-- Wrapping 32-bit multiplication (Rust u32 multiplication in a release
build). -/
def wmul (a b : Nat) : Nat := (a * b) % U32

/-- Body of the map in solve (src/main.rs): quantize one key timestamp to
the nearest beat index, given the beat period in milliseconds; ties and
exact boundaries choose the lower beat index. -/
def quantize (beat_ms key : Nat) : Nat :=
  let ans_0 := key / beat_ms
  let ans_1 := wadd (key / beat_ms) 1
  if wsub key (wmul ans_0 beat_ms) ≤ wsub (wmul ans_1 beat_ms) key then
    ans_0
  else
    ans_1

/-- Closure-based filter in solve (src/main.rs): drop an element exactly
when it equals the previously seen one, updating the seen value at every
element. -/
def dedupFilter : Option Nat → List Nat → List Nat
  | _, [] => []
  | last, x :: xs =>
    if last = some x then dedupFilter (some x) xs
    else x :: dedupFilter (some x) xs

/-- Rust fn solve from src/main.rs, in release (wrapping) semantics.  The
call beat.sort_unstable() is modelled by insertionSort: on Nat any
comparison sort produces the unique weakly sorted permutation, so the two
agree elementwise. -/
def solve (input : Input) : Output :=
  let bmp := input.bmp
  let beat_ms := 60000 / bmp
  let beat := input.keys.map (fun key => quantize beat_ms key)
  let sorted := beat.insertionSort (· ≤ ·)
  ⟨bmp, dedupFilter none sorted⟩

/-- Checked 32-bit addition: the overflow check a debug build performs on
Rust u32 addition. -/
def cadd (a b : Nat) : Option Nat := if a + b < U32 then some (a + b) else none

/-- Checked 32-bit subtraction: the underflow check a debug build performs
on Rust u32 subtraction. -/
def csub (a b : Nat) : Option Nat := if b ≤ a then some (a - b) else none

/-- Checked 32-bit multiplication: the overflow check a debug build
performs on Rust u32 multiplication. -/
def cmul (a b : Nat) : Option Nat := if a * b < U32 then some (a * b) else none

/-- Checked division: Rust u32 division panics exactly on a zero divisor. -/
def cdiv (a b : Nat) : Option Nat := if b = 0 then none else some (a / b)

/-- Checked (debug-build) evaluation of the quantization body in solve:
none when any u32 operation overflows, underflows or divides by zero. -/
def quantizeChecked (beat_ms key : Nat) : Option Nat := do
  let ans_0 ← cdiv key beat_ms
  let ans_1 ← cadd ans_0 1
  let m0 ← cmul ans_0 beat_ms
  let l ← csub key m0
  let m1 ← cmul ans_1 beat_ms
  let r ← csub m1 key
  pure (if l ≤ r then ans_0 else ans_1)

/-- Evaluate a checked operation on every list element, failing if any
element fails. -/
def mapChecked (f : Nat → Option Nat) : List Nat → Option (List Nat)
  | [] => some []
  | x :: xs =>
    match f x, mapChecked f xs with
    | some y, some ys => some (y :: ys)
    | _, _ => none

/-- Checked (debug-build) evaluation of solve from src/main.rs: none
exactly when some u32 arithmetic step panics in a debug build. -/
def solveChecked (input : Input) : Option Output := do
  let beat_ms ← cdiv 60000 input.bmp
  let beat ← mapChecked (fun key => quantizeChecked beat_ms key) input.keys
  let sorted := beat.insertionSort (· ≤ ·)
  pure ⟨input.bmp, dedupFilter none sorted⟩

/-- Meta messages used by build in src/main.rs (midly MetaMessage,
restricted to the constructors the source uses; numeric payloads are the
u32 values passed to the library). -/
inductive MetaMessage where
  | TrackName (bytes : List Nat)
  | TimeSignature (num den clocks thirtyseconds : Nat)
  | Tempo (microsPerBeat : Nat)
  | EndOfTrack
deriving DecidableEq

/-- Midi channel messages used by build in src/main.rs. -/
inductive MidiMessage where
  | NoteOn (key vel : Nat)
  | NoteOff (key vel : Nat)
deriving DecidableEq

/-- Kind of a track event (midly TrackEventKind restricted to what the
source uses). -/
inductive TrackEventKind where
  | Meta (msg : MetaMessage)
  | Midi (channel : Nat) (message : MidiMessage)
deriving DecidableEq

/-- A midly TrackEvent: a delta time and an event kind.  The delta is the
u32 value the source passes to u28::new. -/
structure TrackEvent where
  delta : Nat
  kind : TrackEventKind
deriving DecidableEq

/-- Track 0 built by build in src/main.rs: empty track name, 4/4 time
signature, tempo in microseconds per quarter note, end of track, all at
delta 0. -/
def track0 (bmp : Nat) : List TrackEvent :=
  [⟨0, .Meta (.TrackName [])⟩,
   ⟨0, .Meta (.TimeSignature 4 2 24 8)⟩,
   ⟨0, .Meta (.Tempo (60000000 / bmp))⟩,
   ⟨0, .Meta .EndOfTrack⟩]

/-- Note-on event at channel 0, key 60, velocity 127, as built by
src/main.rs. -/
def noteOn (delta : Nat) : TrackEvent :=
  ⟨delta, .Midi 0 (.NoteOn 60 127)⟩

/-- Note-off event at channel 0, key 60, velocity 0, as built by
src/main.rs. -/
def noteOff (delta : Nat) : TrackEvent :=
  ⟨delta, .Midi 0 (.NoteOff 60 0)⟩

/-- The on_delta expression of iteration i of the build loop: beat[0] for
the first iteration, 0 afterwards. -/
def onDelta (beat : List Nat) (i : Nat) : Nat :=
  if i = 0 then beat.getD 0 0 else 0

/-- The off_delta expression of iteration i of the build loop: the literal
1 for the last iteration, otherwise the u32 difference
beat[i+1] - beat[i]. -/
def offDelta (beat : List Nat) (i : Nat) : Nat :=
  if i = beat.length - 1 then 1
  else wsub (beat.getD (i + 1) 0) (beat.getD i 0)

/-- Track 1 built by build in src/main.rs: a note-on/note-off pair per beat
index, each delta scaled by 115200 / bmp in u32 arithmetic, then a final
end-of-track event. -/
def track1 (bmp : Nat) (beat : List Nat) : List TrackEvent :=
  ((List.range beat.length).flatMap fun i =>
    [noteOn (wmul (onDelta beat i) 115200 / bmp),
     noteOff (wmul (offDelta beat i) 115200 / bmp)])
  ++ [⟨0, .Meta .EndOfTrack⟩]

/-- Rust fn build from src/main.rs, modelled up to the two track event
lists handed to the external MIDI serializer. -/
def build (out : Output) : List (List TrackEvent) :=
  [track0 out.bmp, track1 out.bmp out.beat]

/-! ### Helper lemmas about the track 1 event list -/

/-- Length of a flatMap of two-element lists over an index range. -/
theorem flatMap_pair_length (f g : Nat → TrackEvent) (n : Nat) :
    ((List.range n).flatMap fun j => [f j, g j]).length = 2 * n := by
  induction n with
  | zero => rfl
  | succ n ih =>
    rw [List.range_succ, List.flatMap_append, List.length_append, ih]
    simp [Nat.mul_succ]

/-- Positional characterization of a flatMap of two-element lists over an
index range: index 2i holds the first element of pair i, index 2i+1 the
second. -/
theorem flatMap_pair_get (f g : Nat → TrackEvent) {n i : Nat} (h : i < n) :
    (((List.range n).flatMap fun j => [f j, g j])[2 * i]? = some (f i))
    ∧ (((List.range n).flatMap fun j => [f j, g j])[2 * i + 1]? = some (g i)) := by
  induction n with
  | zero => exact absurd h (Nat.not_lt_zero i)
  | succ n ih =>
    rw [List.range_succ, List.flatMap_append]
    have hlen := flatMap_pair_length f g n
    rcases Nat.lt_or_ge i n with hi | hi
    · exact ⟨by rw [List.getElem?_append_left (by omega)]; exact (ih hi).1,
        by rw [List.getElem?_append_left (by omega)]; exact (ih hi).2⟩
    · have hin : i = n := by omega
      subst hin
      refine ⟨?_, ?_⟩
      · rw [List.getElem?_append_right (by omega)]
        simp [hlen]
      · rw [List.getElem?_append_right (by omega)]
        simp [hlen]

/-- Track 1 has one note-on/off pair per beat plus the end-of-track
event. -/
theorem track1_length (bmp : Nat) (beat : List Nat) :
    (track1 bmp beat).length = 2 * beat.length + 1 := by
  unfold track1
  rw [List.length_append]
  have h : ((List.range beat.length).flatMap fun i =>
      [noteOn (wmul (onDelta beat i) 115200 / bmp),
       noteOff (wmul (offDelta beat i) 115200 / bmp)]).length = 2 * beat.length :=
    flatMap_pair_length _ _ _
  rw [h]
  rfl

/-- The note-on event of iteration i sits at index 2i of track 1. -/
theorem track1_on (bmp : Nat) (beat : List Nat) {i : Nat} (h : i < beat.length) :
    (track1 bmp beat)[2 * i]? =
      some (noteOn (wmul (onDelta beat i) 115200 / bmp)) := by
  have hlen : ((List.range beat.length).flatMap fun i =>
      [noteOn (wmul (onDelta beat i) 115200 / bmp),
       noteOff (wmul (offDelta beat i) 115200 / bmp)]).length = 2 * beat.length :=
    flatMap_pair_length _ _ _
  unfold track1
  rw [List.getElem?_append_left (by rw [hlen]; omega)]
  exact (flatMap_pair_get _ _ h).1

/-- The note-off event of iteration i sits at index 2i+1 of track 1. -/
theorem track1_off (bmp : Nat) (beat : List Nat) {i : Nat} (h : i < beat.length) :
    (track1 bmp beat)[2 * i + 1]? =
      some (noteOff (wmul (offDelta beat i) 115200 / bmp)) := by
  have hlen : ((List.range beat.length).flatMap fun i =>
      [noteOn (wmul (onDelta beat i) 115200 / bmp),
       noteOff (wmul (offDelta beat i) 115200 / bmp)]).length = 2 * beat.length :=
    flatMap_pair_length _ _ _
  unfold track1
  rw [List.getElem?_append_left (by rw [hlen]; omega)]
  exact (flatMap_pair_get _ _ h).2

/-! ### Helper lemmas about deduplication of a sorted list -/

/-- On a weakly sorted list bounded below by the last seen value, the
stateful deduplication filter yields a strictly sorted list of elements
strictly above that value. -/
theorem dedupFilter_sorted_some :
    ∀ (l : List Nat) (a : Nat), List.Sorted (· ≤ ·) l → (∀ x ∈ l, a ≤ x) →
      List.Sorted (· < ·) (dedupFilter (some a) l) ∧
      ∀ y ∈ dedupFilter (some a) l, a < y := by
  intro l
  induction l with
  | nil => intro a _ _; simp [dedupFilter]
  | cons x xs ih =>
    intro a hs hb
    rw [List.sorted_cons] at hs
    obtain ⟨hx, hxs⟩ := hs
    have hax : a ≤ x := hb x (List.mem_cons_self x xs)
    have hrec := ih x hxs hx
    by_cases hcase : a = x
    · subst hcase
      simpa only [dedupFilter, if_pos rfl] using hrec
    · have hlt : a < x := lt_of_le_of_ne hax hcase
      simp only [dedupFilter]
      rw [if_neg (by simpa using hcase)]
      constructor
      · rw [List.sorted_cons]
        exact ⟨fun y hy => hrec.2 y hy, hrec.1⟩
      · intro y hy
        rcases List.mem_cons.mp hy with rfl | hy
        · exact hlt
        · exact hlt.trans (hrec.2 y hy)

/-- The stateful deduplication filter turns a weakly sorted list into a
strictly sorted one. -/
theorem dedupFilter_sorted (l : List Nat) (hl : List.Sorted (· ≤ ·) l) :
    List.Sorted (· < ·) (dedupFilter none l) := by
  cases l with
  | nil => simp [dedupFilter]
  | cons x xs =>
    rw [List.sorted_cons] at hl
    simp only [dedupFilter]
    rw [if_neg (by simp)]
    rw [List.sorted_cons]
    have h := dedupFilter_sorted_some xs x hl.2 hl.1
    exact ⟨fun y hy => h.2 y hy, h.1⟩

/-! ### Helper lemmas about the quantization arithmetic -/

/-- Any natural number is below the next multiple of a positive period. -/
theorem lt_div_mul_add (t P : Nat) (hP : 0 < P) : t < t / P * P + P := by
  conv_lhs => rw [← Nat.div_add_mod t P]
  rw [Nat.mul_comm P (t / P)]
  exact Nat.add_lt_add_left (Nat.mod_lt t hP) _

/-- Wrapping u32 evaluation of the quantization body agrees with the exact
rounding rule, for any u32 timestamp and any period between 1 and 60000:
the only products that can exceed 32 bits reenter the comparison reduced
modulo 2^32, which leaves the comparison outcome unchanged. -/
theorem quantize_core (P t q M : Nat) (hP : 0 < P) (hP2 : P ≤ 60000)
    (ht : t < U32) (hq : t / P = q) (hM : q * P = M)
    (h1 : M ≤ t) (h2 : t < M + P) :
    quantize P t = if t - M ≤ M + P - t then q else q + 1 := by
  rcases Nat.lt_or_ge (q + 1) U32 with hq1 | hq1
  · have hM2 : (q + 1) * P = M + P := by rw [Nat.succ_mul, hM]
    show (if wsub t (wmul (t / P) P) ≤ wsub (wmul (wadd (t / P) 1) P) t
          then t / P else wadd (t / P) 1) = if t - M ≤ M + P - t then q else q + 1
    rw [hq]
    have hwadd : wadd q 1 = q + 1 := by
      unfold wadd
      exact Nat.mod_eq_of_lt hq1
    rw [hwadd]
    have hcond : wsub t (wmul q P) ≤ wsub (wmul (q + 1) P) t ↔
        t - M ≤ M + P - t := by
      unfold wsub wmul
      rw [hM, hM2]
      simp only [U32] at ht ⊢
      omega
    by_cases hb : t - M ≤ M + P - t
    · rw [if_pos (hcond.mpr hb), if_pos hb]
    · rw [if_neg (fun hc => hb (hcond.mp hc)), if_neg hb]
  · have hqle : q ≤ t := hq ▸ Nat.div_le_self t P
    have hqv : q = 4294967295 := by simp only [U32] at ht hq1; omega
    subst hqv
    have hPv : P = 1 := by simp only [U32] at ht; omega
    subst hPv
    have hMv : M = 4294967295 := by omega
    subst hMv
    have htv : t = 4294967295 := by simp only [U32] at ht; omega
    subst htv
    decide

/-- The quantization body computes the nearest-boundary rounding rule with
ties broken low, for every u32 timestamp and every period in 1..60000. -/
theorem quantize_rule (P t : Nat) (hP : 0 < P) (hP2 : P ≤ 60000) (ht : t < U32) :
    quantize P t =
      if t - t / P * P ≤ (t / P + 1) * P - t then t / P else t / P + 1 := by
  have h1 : t / P * P ≤ t := Nat.div_mul_le_self t P
  have h2 : t < t / P * P + P := lt_div_mul_add t P hP
  have hcore := quantize_core P t (t / P) (t / P * P) hP hP2 ht rfl rfl h1 h2
  rw [hcore, Nat.succ_mul]

/-- Under the no-overflow bound key + period < 2^32, the checked (debug)
evaluation of the quantization body succeeds and returns the wrapping
(release) value. -/
theorem quantizeChecked_eq (P t : Nat) (hP : 0 < P) (hP2 : P ≤ 60000)
    (ht : t + P < U32) :
    quantizeChecked P t = some (quantize P t) := by
  have ht' : t < U32 := Nat.lt_of_le_of_lt (Nat.le_add_right t P) ht
  have h1 : t / P * P ≤ t := Nat.div_mul_le_self t P
  have h2 : t < t / P * P + P := lt_div_mul_add t P hP
  have hd : t / P ≤ t := Nat.div_le_self t P
  have e1 : cdiv t P = some (t / P) := by
    unfold cdiv
    rw [if_neg (Nat.pos_iff_ne_zero.mp hP)]
  have e2 : cadd (t / P) 1 = some (t / P + 1) := by
    unfold cadd
    rw [if_pos (Nat.lt_of_le_of_lt (Nat.succ_le_succ hd)
      (Nat.lt_of_le_of_lt (Nat.add_le_add_left hP t) ht))]
  have e3 : cmul (t / P) P = some (t / P * P) := by
    unfold cmul
    rw [if_pos (Nat.lt_of_le_of_lt h1 ht')]
  have e4 : csub t (t / P * P) = some (t - t / P * P) := by
    unfold csub
    rw [if_pos h1]
  have e5 : cmul (t / P + 1) P = some ((t / P + 1) * P) := by
    unfold cmul
    rw [if_pos (by
      rw [Nat.succ_mul]
      exact Nat.lt_of_le_of_lt (Nat.add_le_add_right h1 P) ht)]
  have e6 : csub ((t / P + 1) * P) t = some ((t / P + 1) * P - t) := by
    unfold csub
    rw [if_pos (by rw [Nat.succ_mul]; exact Nat.le_of_lt h2)]
  simp only [quantizeChecked, e1, e2, e3, e4, e5, e6, Option.bind_eq_bind,
    Option.some_bind, Option.pure_def]
  rw [quantize_rule P t hP hP2 ht']

/-- Pointwise successful checked evaluation lifts to lists. -/
theorem mapChecked_eq_map (f : Nat → Option Nat) (g : Nat → Nat) :
    ∀ l : List Nat, (∀ k ∈ l, f k = some (g k)) → mapChecked f l = some (l.map g)
  | [], _ => rfl
  | x :: xs, h => by
    have hx := h x (List.mem_cons_self x xs)
    have hxs := mapChecked_eq_map f g xs fun k hk => h k (List.mem_cons_of_mem x hk)
    simp [mapChecked, hx, hxs]

/-! ### Helper lemmas about the parser -/

/-- The key loop succeeds whenever every remaining token is empty or a
valid u32 numeral. -/
theorem parseKeys_ok :
    ∀ rest : List (List Char), (∀ r ∈ rest, r = [] ∨ (parseU32 r).isSome) →
      ∃ ks, parseKeys rest = .ok ks
  | [], _ => ⟨[], rfl⟩
  | t :: ts, h => by
    obtain ⟨ks, hks⟩ := parseKeys_ok ts fun r hr => h r (List.mem_cons_of_mem t hr)
    by_cases hte : t = []
    · exact ⟨ks, by simp [parseKeys, hte, hks]⟩
    · rcases h t (List.mem_cons_self t ts) with rfl | hsome
      · exact absurd rfl hte
      · obtain ⟨k, hk⟩ := Option.isSome_iff_exists.mp hsome
        exact ⟨k :: ks, by simp [parseKeys, hte, hk, hks, Except.map]⟩

/-- The key loop skips empty tokens: filtering them away first does not
change its result. -/
theorem parseKeys_filter :
    ∀ ts : List (List Char),
      parseKeys (ts.filter fun t => !t.isEmpty) = parseKeys ts := by
  intro ts
  induction ts with
  | nil => rfl
  | cons t ts ih =>
    by_cases hte : t = []
    · subst hte
      simpa [parseKeys] using ih
    · have hf : t.isEmpty = false := by
        cases t with
        | nil => exact absurd rfl hte
        | cons a l => rfl
      simp [List.filter_cons, hf, parseKeys, hte, ih]

/-! ### Claim theorems -/

/-- Claim C10: solve leaves the tempo field unchanged, so the tempo the
MIDI builder encodes is exactly the parsed tempo. -/
theorem claim_C10 (input : Input) : (solve input).bmp = input.bmp := rfl

/-- Claim C4: for every tempo in 1..60000 and any list of keys, in any
order and possibly with duplicates, the beat list produced by solve is
strictly increasing and has no duplicate values. -/
theorem claim_C4 (bmp : Nat) (keys : List Nat) (h1 : 1 ≤ bmp)
    (h2 : bmp ≤ 60000) :
    List.Sorted (· < ·) (solve ⟨bmp, keys⟩).beat ∧
    (solve ⟨bmp, keys⟩).beat.Nodup := by
  have hs : List.Sorted (· ≤ ·)
      (((keys.map fun key => quantize (60000 / bmp) key).insertionSort (· ≤ ·))) :=
    List.sorted_insertionSort _ _
  have hlt := dedupFilter_sorted _ hs
  exact ⟨hlt, hlt.nodup⟩

/-- Claim C4 witness: a concrete unsorted key list with duplicates yields
a strictly sorted, duplicate-free beat list. -/
theorem claim_C4_witness :
    List.Sorted (· < ·) (solve ⟨120, [750, 0, 250, 250]⟩).beat ∧
    (solve ⟨120, [750, 0, 250, 250]⟩).beat.Nodup :=
  claim_C4 120 [750, 0, 250, 250] (by decide) (by decide)

/-- Claim C3: for every tempo in 1..60000 with beat period 60000 / tempo
and every u32 timestamp t, solve quantizes t to lower = t / period when
t - lower*period is at most (lower+1)*period - t and to lower+1 otherwise;
a timestamp on a beat boundary rounds to the lower index; and the concrete
scenario at tempo 120 with timestamps 0, 250, 500, 750 yields beats
[0, 1]. -/
theorem claim_C3 :
    (∀ bmp t, 1 ≤ bmp → bmp ≤ 60000 → t < U32 →
      quantize (60000 / bmp) t =
        if t - t / (60000 / bmp) * (60000 / bmp) ≤
            (t / (60000 / bmp) + 1) * (60000 / bmp) - t
        then t / (60000 / bmp) else t / (60000 / bmp) + 1)
    ∧ (∀ bmp t, 1 ≤ bmp → bmp ≤ 60000 → t < U32 → t % (60000 / bmp) = 0 →
      quantize (60000 / bmp) t = t / (60000 / bmp))
    ∧ solve ⟨120, [0, 250, 500, 750]⟩ = ⟨120, [0, 1]⟩ := by
  have hP : ∀ bmp : Nat, 1 ≤ bmp → bmp ≤ 60000 → 0 < 60000 / bmp :=
    fun bmp hb1 hb2 => (Nat.one_le_div_iff (by omega)).mpr hb2
  refine ⟨fun bmp t hb1 hb2 ht => ?_, fun bmp t hb1 hb2 ht hbd => ?_, by decide⟩
  · exact quantize_rule _ t (hP bmp hb1 hb2) (Nat.div_le_self 60000 bmp) ht
  · rw [quantize_rule _ t (hP bmp hb1 hb2) (Nat.div_le_self 60000 bmp) ht]
    have hdm := Nat.div_add_mod t (60000 / bmp)
    rw [Nat.mul_comm] at hdm
    rw [hbd, Nat.add_zero] at hdm
    rw [hdm, if_pos (by simp)]

/-- Claim C3 witness: the tie at timestamp 250 under tempo 120 follows the
rounding rule. -/
theorem claim_C3_witness :
    quantize (60000 / 120) 250 =
      if 250 - 250 / (60000 / 120) * (60000 / 120) ≤
          (250 / (60000 / 120) + 1) * (60000 / 120) - 250
      then 250 / (60000 / 120) else 250 / (60000 / 120) + 1 :=
  claim_C3.1 120 250 (by decide) (by decide) (by decide)

/-- Claim C2, counterexample: at tempo 1 the timestamp 4294967295 makes
the multiplication (lower+1) * beat_period_ms exceed 32 bits, so the
checked (debug-build) evaluation of solve fails even though the tempo is
in 1..60000 and the timestamp is a valid u32. -/
theorem claim_C2_counterexample :
    solveChecked ⟨1, [4294967295]⟩ = none := by decide

/-- Claim C2, amended: for tempo in 1..60000, solve is total and free of
u32 overflow provided every timestamp t satisfies
t + beat_period_ms < 2^32; under that bound the checked evaluation
succeeds and returns exactly the wrapping-evaluation output. -/
theorem claim_C2_amended (bmp : Nat) (keys : List Nat) (h1 : 1 ≤ bmp)
    (h2 : bmp ≤ 60000) (hk : ∀ k ∈ keys, k + 60000 / bmp < U32) :
    solveChecked ⟨bmp, keys⟩ = some (solve ⟨bmp, keys⟩) := by
  have hP : 0 < 60000 / bmp := (Nat.one_le_div_iff (by omega)).mpr h2
  have hmap := mapChecked_eq_map (fun key => quantizeChecked (60000 / bmp) key)
    (fun key => quantize (60000 / bmp) key) keys
    (fun k hk' => quantizeChecked_eq _ _ hP (Nat.div_le_self 60000 bmp) (hk k hk'))
  have hdiv : cdiv 60000 bmp = some (60000 / bmp) := by
    unfold cdiv
    rw [if_neg (by omega)]
  simp only [solveChecked, solve, hdiv, hmap, Option.bind_eq_bind,
    Option.some_bind, Option.pure_def]

/-- Claim C2 witness: a concrete in-bounds input on which the checked
evaluation succeeds with the wrapping-evaluation output. -/
theorem claim_C2_witness :
    solveChecked ⟨120, [250]⟩ = some (solve ⟨120, [250]⟩) :=
  claim_C2_amended 120 [250] (by decide) (by decide) (by decide)

/-- Claim C1, counterexample: the input whose tokens are naive-rhythm,
bpm, 120 does not parse successfully as the claim asserts; the code's
keyword literal is bmp, so this input fails with BadBpm. -/
theorem claim_C1_counterexample :
    parse "naive-rhythm bpm 120" = .error .BadBpm := rfl

/-- Claim C1, amended: the keyword literal is bmp, not bpm.  If the tokens
begin with naive-rhythm, bmp, then a u32 numeral, and every remaining
token is empty or a u32 numeral, parse succeeds with that numeral as
tempo; with first token naive-rhythm, a missing second token or a second
token different from bmp fails with BadBpm. -/
theorem claim_C1_amended :
    (∀ (t2 : List Char) (rest : List (List Char)) (n : Nat),
      parseU32 t2 = some n →
      (∀ r ∈ rest, r = [] ∨ (parseU32 r).isSome) →
      ∃ ks, parseTokens ("naive-rhythm".data :: "bmp".data :: t2 :: rest) =
        .ok ⟨n, ks⟩)
    ∧ parseTokens ["naive-rhythm".data] = .error .BadBpm
    ∧ (∀ (t1 : List Char) (rest : List (List Char)), t1 ≠ "bmp".data →
      parseTokens ("naive-rhythm".data :: t1 :: rest) = .error .BadBpm) := by
  refine ⟨fun t2 rest n hn hrest => ?_, by rfl, fun t1 rest ht1 => ?_⟩
  · obtain ⟨ks, hks⟩ := parseKeys_ok rest hrest
    exact ⟨ks, by simp [parseTokens, hn, hks, Except.map]⟩
  · simp [parseTokens, ht1]

/-- Claim C1 witness: the token list naive-rhythm, bmp, 120 parses
successfully with tempo 120. -/
theorem claim_C1_witness :
    ∃ ks, parseTokens ["naive-rhythm".data, "bmp".data, "120".data] =
      .ok ⟨120, ks⟩ :=
  claim_C1_amended.1 "120".data [] 120 (by rfl) (by simp)

/-- Claim C9, counterexample: inserting one extra space between the magic
token and the keyword changes the result of parse from success to a
BadBpm failure, so empty tokens are not skipped at every position of the
grammar. -/
theorem claim_C9_counterexample :
    parse "naive-rhythm bmp 120" = .ok ⟨120, []⟩ ∧
    parse "naive-rhythm  bmp 120" = .error .BadBpm := ⟨rfl, rfl⟩

/-- Claim C9, amended: empty tokens are silently skipped only in the key
section of the grammar, after the magic, keyword and tempo tokens:
filtering empty tokens out of the remaining token list never changes the
result of the key loop or of the token-level parse. -/
theorem claim_C9_amended :
    (∀ ts : List (List Char),
      parseKeys (ts.filter fun t => !t.isEmpty) = parseKeys ts)
    ∧ (∀ (t2 : List Char) (rest : List (List Char)),
      parseTokens ("naive-rhythm".data :: "bmp".data :: t2 ::
        (rest.filter fun t => !t.isEmpty)) =
      parseTokens ("naive-rhythm".data :: "bmp".data :: t2 :: rest)) := by
  refine ⟨parseKeys_filter, fun t2 rest => ?_⟩
  cases hp : parseU32 t2 with
  | none => simp [parseTokens, hp]
  | some n => simp [parseTokens, hp, parseKeys_filter rest]

/-- Claim C9 witness: an empty token inside the key section is skipped
without changing the parse result. -/
theorem claim_C9_witness :
    parseTokens ("naive-rhythm".data :: "bmp".data :: "120".data ::
      ([([] : List Char), "7".data].filter fun t => !t.isEmpty)) =
    parseTokens ["naive-rhythm".data, "bmp".data, "120".data,
      ([] : List Char), "7".data] :=
  claim_C9_amended.2 "120".data [([] : List Char), "7".data]

/-- Claim C5, counterexample: for the single beat 0 at tempo 120, the
note-off event of the last beat has delta 1 * 115200 / 120 = 960, not the
literal 1 the claim asserts. -/
theorem claim_C5_counterexample :
    (track1 120 [0])[1]? = some (noteOff 960) ∧
    (track1 120 [0])[1]? ≠ some (noteOff 1) := by
  constructor <;> decide

/-- Claim C5, amended: the literal 1 is the beat gap fed to the delta
formula, so for every non-empty beats list the note-off event of the last
beat index has delta 1 * 115200 / tempo = 115200 / tempo. -/
theorem claim_C5_amended (out : Output) (hne : out.beat ≠ []) :
    (track1 out.bmp out.beat)[2 * out.beat.length - 1]? =
      some (noteOff (115200 / out.bmp)) := by
  have hlen0 : 0 < out.beat.length := List.length_pos.mpr hne
  have h := track1_off out.bmp out.beat (i := out.beat.length - 1) (by omega)
  have hidx : 2 * (out.beat.length - 1) + 1 = 2 * out.beat.length - 1 := by
    omega
  rw [hidx] at h
  have hoff : offDelta out.beat (out.beat.length - 1) = 1 := by
    simp [offDelta]
  rw [hoff] at h
  simpa [wmul, U32] using h

/-- Claim C5 witness: for beats [2] at tempo 60 the last note-off delta is
115200 / 60 = 1920. -/
theorem claim_C5_witness :
    (track1 60 [2])[1]? = some (noteOff 1920) :=
  claim_C5_amended ⟨60, [2]⟩ (by decide)

/-- Claim C6: in track 1 the note-on of index 0 has delta
beats[0] * 115200 / tempo in u32 arithmetic, every later note-on has
delta 0, and the note-off of every non-last index i has delta
(beats[i+1] - beats[i]) * 115200 / tempo in u32 arithmetic. -/
theorem claim_C6 (out : Output) (hne : out.beat ≠ []) (htp : 0 < out.bmp) :
    (track1 out.bmp out.beat)[0]? =
      some (noteOn (wmul (out.beat.getD 0 0) 115200 / out.bmp))
    ∧ (∀ i, 0 < i → i < out.beat.length →
        (track1 out.bmp out.beat)[2 * i]? = some (noteOn 0))
    ∧ (∀ i, i + 1 < out.beat.length →
        (track1 out.bmp out.beat)[2 * i + 1]? =
          some (noteOff (wmul
            (wsub (out.beat.getD (i + 1) 0) (out.beat.getD i 0))
            115200 / out.bmp))) := by
  have hlen0 : 0 < out.beat.length := List.length_pos.mpr hne
  refine ⟨?_, fun i hi0 hi => ?_, fun i hi => ?_⟩
  · have h := track1_on out.bmp out.beat hlen0
    simpa [onDelta] using h
  · have h := track1_on out.bmp out.beat hi
    simpa [onDelta, Nat.pos_iff_ne_zero.mp hi0, wmul, U32] using h
  · have h := track1_off out.bmp out.beat (i := i) (by omega)
    have hne' : i ≠ out.beat.length - 1 := by omega
    simpa [offDelta, hne'] using h

/-- Claim C6 witness: for beats [3, 5] at tempo 120 the note-off of index
0 has delta computed from the u32 gap 5 - 3. -/
theorem claim_C6_witness :
    (track1 120 [3, 5])[1]? =
      some (noteOff (wmul (wsub 5 3) 115200 / 120)) := by
  have h := (claim_C6 ⟨120, [3, 5]⟩ (by decide) (by decide)).2.2 0 (by decide)
  simpa using h

/-- Claim C7, counterexample: at tempo 1 with beats [0, 37283] the
intermediate multiplication 37283 * 115200 wraps at 32 bits, so the
note-off delta of index 0 is 34304 and not the mathematically exact
(37283 - 0) * 115200 / 1. -/
theorem claim_C7_counterexample :
    (track1 1 [0, 37283])[1]? = some (noteOff 34304) ∧
    (track1 1 [0, 37283])[1]? ≠ some (noteOff ((37283 - 0) * 115200 / 1)) := by
  constructor <;> decide

/-- Claim C7, amended: the multiplication by 115200 is carried out in
32-bit arithmetic, not a wider type; a delta equals the mathematically
exact gap * 115200 / tempo only under the no-overflow bound
gap * 115200 < 2^32, which the first note-on and every non-last note-off
then satisfy exactly. -/
theorem claim_C7_amended (out : Output) :
    (out.beat ≠ [] → out.beat.getD 0 0 * 115200 < U32 →
      (track1 out.bmp out.beat)[0]? =
        some (noteOn (out.beat.getD 0 0 * 115200 / out.bmp)))
    ∧ (∀ i, i + 1 < out.beat.length →
        out.beat.getD i 0 ≤ out.beat.getD (i + 1) 0 →
        (out.beat.getD (i + 1) 0 - out.beat.getD i 0) * 115200 < U32 →
        (track1 out.bmp out.beat)[2 * i + 1]? =
          some (noteOff ((out.beat.getD (i + 1) 0 - out.beat.getD i 0) *
            115200 / out.bmp))) := by
  constructor
  · intro hne hlt
    have h := track1_on out.bmp out.beat (List.length_pos.mpr hne)
    have hw : wmul (onDelta out.beat 0) 115200 = out.beat.getD 0 0 * 115200 := by
      unfold wmul onDelta
      simp only [if_pos rfl]
      exact Nat.mod_eq_of_lt hlt
    rw [hw] at h
    simpa using h
  · intro i hi hle hlt
    have h := track1_off out.bmp out.beat (i := i) (by omega)
    have hoff : offDelta out.beat i =
        out.beat.getD (i + 1) 0 - out.beat.getD i 0 := by
      unfold offDelta
      rw [if_neg (by omega)]
      unfold wsub
      simp only [U32] at hlt ⊢
      omega
    rw [hoff] at h
    have hw : wmul (out.beat.getD (i + 1) 0 - out.beat.getD i 0) 115200 =
        (out.beat.getD (i + 1) 0 - out.beat.getD i 0) * 115200 := by
      unfold wmul
      exact Nat.mod_eq_of_lt hlt
    rw [hw] at h
    exact h

/-- Claim C7 witness: for beats [0, 2] at tempo 60 the gap 2 fits the
no-overflow bound and the note-off delta of index 0 is the exact
(2 - 0) * 115200 / 60. -/
theorem claim_C7_witness :
    (track1 60 [0, 2])[1]? =
      some (noteOff ((2 - 0) * 115200 / 60)) := by
  have h := (claim_C7_amended ⟨60, [0, 2]⟩).2 0 (by decide) (by decide) (by decide)
  simpa using h

/-- Claim C8: build produces exactly two tracks; track 0 is exactly the
four metadata events (empty track name, time signature 4/4, tempo
60000000 / tempo, end of track) at delta 0; track 1 has exactly
2 * len(beats) + 1 events; and empty beats give a track 1 holding only
the end-of-track event. -/
theorem claim_C8 (out : Output) :
    (build out).length = 2
    ∧ (build out)[0]? = some
        [⟨0, .Meta (.TrackName [])⟩,
         ⟨0, .Meta (.TimeSignature 4 2 24 8)⟩,
         ⟨0, .Meta (.Tempo (60000000 / out.bmp))⟩,
         ⟨0, .Meta .EndOfTrack⟩]
    ∧ (track1 out.bmp out.beat).length = 2 * out.beat.length + 1
    ∧ (out.beat = [] → (build out)[1]? = some [⟨0, .Meta .EndOfTrack⟩]) := by
  obtain ⟨b, beat⟩ := out
  refine ⟨rfl, rfl, track1_length b beat, fun hb => ?_⟩
  subst hb
  rfl

/-- Claim C8 witness: the empty beat list yields a track 1 holding only
the end-of-track event. -/
theorem claim_C8_witness :
    (build ⟨120, []⟩)[1]? = some [⟨0, .Meta .EndOfTrack⟩] :=
  (claim_C8 ⟨120, []⟩).2.2.2 rfl
